import Mathlib

/-!
Shallow embedding of the core of `python-configuration`
(`src/config/__init__.py`): the `Configuration` flat dotted-key store and
the `ConfigurationSet` layered view.

Python strings are modelled as `List Char`, Python dicts as association
lists in which a later entry for a key shadows an earlier one (`fget`
returns the last matching entry, which is how repeated `dict.__setitem__`
behaves; a genuine Python dict never holds two entries for one key, so on
such lists the two readings agree).  Python exceptions are modelled with
`Except`: `PyErr.keyError` stands for `KeyError`, `PyErr.valueError` for
`ValueError`.
-/

deriving instance DecidableEq for Except

namespace PyConf

/-- A Python string: a sequence of characters. -/
abbrev Str := List Char

/-- A scalar configuration value (string, int, or bool leaf). -/
inductive Value where
  | vStr (s : Str)
  | vInt (z : Int)
  | vBool (b : Bool)
deriving DecidableEq

/-- A flat dict: dotted key-path to scalar value, later entries shadowing
earlier ones (models `Configuration._config`). -/
abbrev FDict := List (Str × Value)

/-- A nested mapping (the `Mapping[str, Any]` accepted by
`Configuration.__init__` and `Configuration.update`), encoded as its entry
list: `nil` is the empty mapping, `leafE k v rest` an entry whose value is
the scalar `v`, and `nodeE k sub rest` an entry whose value is itself a
nested mapping.  A single inductive (rather than a list of a nested value
type) keeps every recursion structural. -/
inductive NDict where
  | nil
  | leafE (k : Str) (v : Value) (rest : NDict)
  | nodeE (k : Str) (sub : NDict) (rest : NDict)
deriving DecidableEq

/-- Python `str.lower` (models `k.lower()`; ASCII case folding). -/
def pyLower (s : Str) : Str := s.map Char.toLower

/-- Apply `k.lower()` only when the store's `lowercase_keys` policy is set. -/
def maybeLower (lc : Bool) (s : Str) : Str := if lc then pyLower s else s

/-- The leaf part of `Configuration._flatten_dict`: the trailing
`result.update((k, v) for k, v in d.items() if not isinstance(v, dict))`
(with `k.lower()` when `lowercase_keys`). -/
def flattenLeaves (lc : Bool) : NDict → FDict
  | .nil => []
  | .leafE k v rest => (maybeLower lc k, v) :: flattenLeaves lc rest
  | .nodeE _ _ rest => flattenLeaves lc rest

/-- The nested part of `Configuration._flatten_dict`: the comprehension
`{k.lower() + "." + ki: vi for k in nested for ki, vi in self._flatten_dict(d[k]).items()}`,
iterating the nested keys in their order of appearance.  The recursive
`self._flatten_dict(d[k])` is inlined as `flattenNodes lc sub ++ flattenLeaves lc sub`. -/
def flattenNodes (lc : Bool) : NDict → FDict
  | .nil => []
  | .leafE _ _ rest => flattenNodes lc rest
  | .nodeE k sub rest =>
      ((flattenNodes lc sub ++ flattenLeaves lc sub).map
        (fun p => (maybeLower lc k ++ '.' :: p.1, p.2)))
        ++ flattenNodes lc rest

/-- `Configuration._flatten_dict`: nested expansions first, then the leaf
entries written over them (`result.update(...)` makes leaves win on any
key collision, which the append order reproduces under last-wins lookup). -/
def flattenDict (lc : Bool) (d : NDict) : FDict :=
  flattenNodes lc d ++ flattenLeaves lc d

/-- View a flat dict as a nested mapping with no nesting (every stored
value is a scalar, the store invariant). -/
def ofFlat : FDict → NDict
  | [] => .nil
  | e :: rest => .leafE e.1 e.2 (ofFlat rest)

/-- Python `dict.get` / `dict.__getitem__` key lookup on the association
list: the last entry for the key wins. -/
def fget : FDict → Str → Option Value
  | [], _ => none
  | e :: rest, k => (fget rest k).or (if e.1 = k then some e.2 else none)

/-- A `Configuration` instance: its `lowercase_keys` policy and its flat
`_config` dict. -/
structure Config where
  lc : Bool
  dat : FDict
deriving DecidableEq

/-- `Configuration.__init__`: flatten the nested input under the store's
case policy. -/
def mkConfig (d : NDict) (lc : Bool) : Config := ⟨lc, flattenDict lc d⟩

/-- `Configuration._filter_dict d pre`: keep the entries whose key starts
with `pre + "."`, strip that leading run of `len(pre) + 1` characters, and
lowercase the remainder when `lowercase_keys` is set.  The inline
comprehension at the top of `Configuration._get_subset` is the same
filter without the lowercasing, i.e. `filterDict false`. -/
def filterDict (lc : Bool) (d : FDict) (pre : Str) : FDict :=
  d.filterMap fun e =>
    if (pre ++ ['.']).isPrefixOf e.1 then
      some (maybeLower lc (e.1.drop (pre.length + 1)), e.2)
    else none

/-- Python `"x.y".split(".")` (always returns at least one piece; empty
pieces appear around consecutive or leading/trailing dots). -/
def splitDot : Str → List Str
  | [] => [[]]
  | c :: cs =>
    if c = '.' then [] :: splitDot cs
    else
      match splitDot cs with
      | [] => [[c]]
      | s :: ss => (c :: s) :: ss

/-- Rejoin path segments with `"."` (the inverse used in proofs). -/
def joinDot : List Str → Str
  | [] => []
  | [s] => s
  | s :: ss => s ++ '.' :: joinDot ss

/-- The result of `Configuration._get_subset`: either a dict of stripped
keys (possibly empty, which `__getitem__` turns into `KeyError`) or a
scalar hit. -/
inductive SubsetResult where
  | dict (d : FDict)
  | val (v : Value)
deriving DecidableEq

/-- The `while prefixes:` loop inside `Configuration._get_subset`:
filter one segment at a time with `_filter_dict`; on an empty filter
return `d.get(p, {})` when at the last segment and `{}` otherwise; when
segments run out return the accumulated dict. -/
def walk (lc : Bool) : FDict → List Str → SubsetResult
  | d, [] => .dict d
  | d, p :: rest =>
    let nd := filterDict lc d p
    if nd = [] then
      if rest = [] then
        match fget d p with
        | some v => .val v
        | none => .dict []
      else .dict []
    else walk lc nd rest

/-- `Configuration._get_subset`: first the raw comprehension collecting
keys strictly prefixed by `pre + "."`; if it is empty, a one-segment path
is looked up directly with `self._config.get(pre, {})`, and a multi-segment
path is resolved by the segment walk. -/
def getSubset (c : Config) (pre : Str) : SubsetResult :=
  let d := filterDict false c.dat pre
  if d = [] then
    if (splitDot pre).length = 1 then
      match fget c.dat pre with
      | some v => .val v
      | none => .dict []
    else walk c.lc c.dat (splitDot pre)
  else .dict d

/-- Python exceptions raised by the core. -/
inductive PyErr where
  | keyError
  | valueError
deriving DecidableEq

/-- What `Configuration.__getitem__` hands back: a sub-configuration's
flat dict, or a scalar. -/
inductive ItemResult where
  | sub (d : FDict)
  | scalar (v : Value)
deriving DecidableEq

/-- `Configuration.__getitem__`: `KeyError` on an empty subset, a fresh
`Configuration(v)` (built with the default `lowercase_keys=False`, hence
the `flattenDict false`) on a dict subset, and the scalar otherwise. -/
def getItem (c : Config) (k : Str) : Except PyErr ItemResult :=
  match getSubset c k with
  | .val v => .ok (.scalar v)
  | .dict d => if d = [] then .error .keyError else .ok (.sub (flattenDict false (ofFlat d)))

/-- `Configuration.update`: `self._config.update(self._flatten_dict(other))`,
an append under last-wins lookup. -/
def updateConfig (c : Config) (other : NDict) : Config :=
  ⟨c.lc, c.dat ++ flattenDict c.lc other⟩

/-- `Configuration.__setitem__` with a scalar value:
`self.update({key: value})`. -/
def setItem (c : Config) (k : Str) (v : Value) : Config :=
  updateConfig c (.leafE k v .nil)

/-- `Configuration.get`: `self.as_dict().get(key, default)` — a plain
exact-key dict lookup on `_config`; it can never raise. -/
def pyGet (c : Config) (k : Str) (default : Value) : Value :=
  (fget c.dat k).getD default

/-- The per-key test of `Configuration.__delitem__`:
`kl = k.lower() if self._lowercase else k; kl == prefix or kl.startswith(prefix + ".")`. -/
def delMatches (lc : Bool) (pre : Str) (k : Str) : Bool :=
  let kl := if lc then pyLower k else k
  kl == pre || (pre ++ ['.']).isPrefixOf kl

/-- `Configuration.__delitem__`: collect every key matching the exact path
or the path plus a dot as a leading run, raise `KeyError` when none does,
and otherwise delete all collected keys. -/
def delItem (c : Config) (pre : Str) : Except PyErr Config :=
  if c.dat.any (fun e => delMatches c.lc pre e.1) then
    .ok ⟨c.lc, c.dat.filter (fun e => !(delMatches c.lc pre e.1))⟩
  else .error .keyError

/-- Python `str(value)` as fed to `as_bool` (ints print as decimal,
booleans never reach this branch of `as_bool`). -/
def pyStr : Value → Str
  | .vStr s => s
  | .vInt z => (toString z).toList
  | .vBool b => if b then "True".toList else "False".toList

/-- Python `str.strip()`: drop whitespace from both ends. -/
def pyStrip (s : Str) : Str :=
  ((s.dropWhile Char.isWhitespace).reverse.dropWhile Char.isWhitespace).reverse

/-- The module-level `TRUTH_TEXT` frozenset. -/
def truthText : List Str :=
  ["t".toList, "true".toList, "y".toList, "yes".toList, "on".toList, "1".toList]

/-- The module-level `FALSE_TEXT` frozenset. -/
def falseText : List Str :=
  ["f".toList, "false".toList, "n".toList, "no".toList, "off".toList, "0".toList, "".toList]

/-- The module-level `as_bool`: booleans pass through, anything else is
`str(...).strip().lower()`-normalised and tested against the two literal
sets, raising `ValueError` when it is in neither. -/
def asBool (v : Value) : Except PyErr Bool :=
  match v with
  | .vBool b => .ok b
  | _ =>
    let s := pyLower (pyStrip (pyStr v))
    if s ∈ truthText then .ok true
    else if s ∈ falseText then .ok false
    else .error .valueError

/-- `Configuration.get_bool`: `as_bool(self[item])`.  A `KeyError` from
`__getitem__` propagates; when `__getitem__` returns a sub-configuration,
`str(...)` of it is a braced dict display, which is in neither literal
set, so `as_bool` raises `ValueError`. -/
def getBool (c : Config) (k : Str) : Except PyErr Bool :=
  match getItem c k with
  | .error e => .error e
  | .ok (.scalar v) => asBool v
  | .ok (.sub _) => .error .valueError

/-- A `ConfigurationSet`: its `_configs` list (index 0 = highest priority)
and its `_writable` flag. -/
structure CSet where
  configs : List Config
  writable : Bool
deriving DecidableEq

/-- The `values` list built by `ConfigurationSet._from_configs`: the
results of the per-layer calls, skipping the layers that raised. -/
def collectItems (cs : List Config) (k : Str) : List ItemResult :=
  cs.filterMap fun c => (getItem c k).toOption

/-- Whether a `_from_configs` result `isinstance(v, Configuration)`. -/
def ItemResult.isSub : ItemResult → Bool
  | .sub _ => true
  | .scalar _ => false

/-- A value held by the `result` dict that `_from_configs` merges into:
`result[k] = v[k]` stores either the scalar `v[k]` returned for an exact
hit, or the sub-`Configuration` object that `v.__getitem__` returns when
another key of `v` extends `k` by a dot. -/
inductive MVal where
  | scalar (v : Value)
  | subConf (d : FDict)
deriving DecidableEq

/-- The merge `result` dict of `_from_configs`: key path to scalar or
sub-`Configuration`, last assignment winning. -/
abbrev MDict := List (Str × MVal)

/-- Key lookup on the merge dict (same last-wins reading as `fget`). -/
def mget : MDict → Str → Option MVal
  | [], _ => none
  | e :: rest, k => (mget rest k).or (if e.1 = k then some e.2 else none)

/-- The distinct stored key paths of a flat dict, first occurrence
first (Python's `set(self.as_dict().keys())`; the set's enumeration
order is arbitrary, but `update` assigns each distinct key once, so the
resulting dict does not depend on the order chosen here). -/
def dedupKeys : FDict → List Str
  | [] => []
  | e :: rest => e.1 :: (dedupKeys rest).filter (fun k => k ≠ e.1)

/-- `Configuration.keys()` as `dict.update` consumes it, for stores in
which the literal-`"keys"` escape hatch does not fire: the set of full
key paths.  (When a store holds the key `"keys"` itself or keys under
`"keys."`, Python's `keys()` returns that stored value instead and
`update` iterates over it — a scalar there is a `TypeError`, a string is
iterated character-wise, a sub-`Configuration` recursively; the theorems
that rely on this model exclude such stores by hypothesis.) -/
def pyKeys (d : FDict) : List Str := dedupKeys d

/-- Coerce a `__getitem__` result into a merge-dict value. -/
def itemToM : ItemResult → MVal
  | .scalar v => .scalar v
  | .sub m => .subConf m

/-- One `result.update(v)` step of the `_from_configs` merge loop, for
`v = Configuration(d)` (built by `__getitem__` with the default
`lowercase_keys=False`): `for k in v.keys(): result[k] = v[k]`, each
read going through `v.__getitem__`.  For `k` a stored key that read
never raises (`getItem_stored` below), so the error case of the
`filterMap` is unreachable. -/
def updateByConfig (acc : MDict) (d : FDict) : MDict :=
  acc ++ (pyKeys d).filterMap fun k =>
    (getItem ⟨false, d⟩ k).toOption.map fun r => (k, itemToM r)

/-- The merge loop of `ConfigurationSet._from_configs`:
`result = {}; for v in values[::-1]: result.update(v)` (skipping
non-`Configuration` values, which is what both merging branches do). -/
def mergeSubs (values : List ItemResult) : MDict :=
  values.reverse.foldl
    (fun acc v => match v with
      | .sub d => updateByConfig acc d
      | .scalar _ => acc) []

/-- What a `ConfigurationSet` read returns: the merged view (whose dict
may hold sub-`Configuration` values) or a scalar from one layer. -/
inductive SetItemResult where
  | sub (d : MDict)
  | scalar (v : Value)
deriving DecidableEq

/-- `ConfigurationSet._from_configs("__getitem__", item)`: collect the
per-layer results; raise the last error when every layer raised; merge
when the first result (and, in the first branch, every result) is a
`Configuration`; otherwise return the first result, which is the first
non-raising layer's value.  The final `Configuration(result)` wrap
flattens `result`, but none of `result`'s values is a `dict` instance
(scalars and `Configuration` objects are leaves to `_flatten_dict`), so
the wrap returns an equal mapping — the `flattenDict_ofFlat` argument —
and the model returns `result` directly. -/
def fromConfigs (cs : List Config) (k : Str) : Except PyErr SetItemResult :=
  match collectItems cs k with
  | [] => .error .keyError
  | v :: vs =>
    if (v :: vs).all ItemResult.isSub then
      .ok (.sub (mergeSubs (v :: vs)))
    else
      match v with
      | .sub _ => .ok (.sub (mergeSubs (v :: vs)))
      | .scalar w => .ok (.scalar w)

/-- `ConfigurationSet.__getitem__`: dispatch through `_from_configs`. -/
def csetGetItem (s : CSet) (k : Str) : Except PyErr SetItemResult :=
  fromConfigs s.configs k

/-- `bool(self._configs and self._configs[0]._lowercase)`. -/
def headLc : List Config → Bool
  | [] => false
  | c :: _ => c.lc

/-- `ConfigurationSet._writable_config`: on the first mutation insert an
empty `Configuration` at the highest-priority position and set the
one-way `_writable` flag; thereafter return the state unchanged. -/
def ensureWritable (s : CSet) : CSet :=
  if s.writable then s else ⟨⟨headLc s.configs, []⟩ :: s.configs, true⟩

/-- `ConfigurationSet.update` (and through it `__setitem__`): write into
`self._writable_config()`, i.e. into layer 0 after `ensureWritable`.
(When `_writable` is already set but `_configs` is empty — unreachable,
since the constructor rejects empty layer lists and layers are never
removed — Python would raise `IndexError`; the model returns the state
unchanged there, and the theorems assume a non-empty layer list.) -/
def csetUpdate (s : CSet) (other : NDict) : CSet :=
  let t := ensureWritable s
  match t.configs with
  | [] => t
  | c :: rest => ⟨updateConfig c other :: rest, t.writable⟩

/-- `ConfigurationSet.__setitem__` with a scalar value:
`self._writable_config()[key] = value`. -/
def csetSetItem (s : CSet) (k : Str) (v : Value) : CSet :=
  csetUpdate s (.leafE k v .nil)

/-- First defined value in a priority-ordered list of lookups (used to
state what the layered merge resolves each key to). -/
def firstSome : List (Option Value) → Option Value
  | [] => none
  | o :: os => o.or (firstSome os)

/-! ### Helper lemmas -/

theorem flattenNodes_ofFlat (lc : Bool) (d : FDict) :
    flattenNodes lc (ofFlat d) = [] := by
  induction d with
  | nil => rfl
  | cons e rest ih => simpa [ofFlat, flattenNodes] using ih

theorem flattenLeaves_ofFlat (d : FDict) :
    flattenLeaves false (ofFlat d) = d := by
  induction d with
  | nil => rfl
  | cons e rest ih => simp [ofFlat, flattenLeaves, maybeLower, ih]

/-- Flattening a flat mapping (one with no nested values) under the
default case policy gives back the same mapping. -/
theorem flattenDict_ofFlat (d : FDict) :
    flattenDict false (ofFlat d) = d := by
  simp [flattenDict, flattenNodes_ofFlat, flattenLeaves_ofFlat]

theorem maybeLower_false (s : Str) : maybeLower false s = s := rfl

theorem fget_append (a b : FDict) (k : Str) :
    fget (a ++ b) k = (fget b k).or (fget a k) := by
  induction a with
  | nil => simp [fget, Option.or_none]
  | cons e a ih =>
      show (fget (a ++ b) k).or (if e.1 = k then some e.2 else none) =
        (fget b k).or ((fget a k).or (if e.1 = k then some e.2 else none))
      rw [ih, Option.or_assoc]

theorem fget_eq_none_iff (d : FDict) (k : Str) :
    fget d k = none ↔ ∀ e ∈ d, e.1 ≠ k := by
  induction d with
  | nil => simp [fget]
  | cons e d ih =>
      show (fget d k).or (if e.1 = k then some e.2 else none) = none ↔ _
      simp only [Option.or_eq_none, ih, List.mem_cons]
      constructor
      · rintro ⟨h1, h2⟩ x hx
        rcases hx with rfl | hx
        · intro hc
          rw [if_pos hc] at h2
          exact Option.noConfusion h2
        · exact h1 x hx
      · intro h
        refine ⟨fun x hx => h x (Or.inr hx), ?_⟩
        rw [if_neg (h e (Or.inl rfl))]

theorem fget_ne_none_of_mem {d : FDict} {e : Str × Value} (h : e ∈ d) :
    fget d e.1 ≠ none := by
  intro hn
  exact ((fget_eq_none_iff d e.1).mp hn e h) rfl

/-- Looking a key up after filtering on a key predicate. -/
theorem fget_filter (q : Str → Bool) (d : FDict) (k : Str) :
    fget (d.filter fun e => q e.1) k = if q k then fget d k else none := by
  induction d with
  | nil => cases hq : q k <;> simp [fget, hq]
  | cons e d ih =>
      rw [List.filter_cons]
      by_cases hq : q e.1
      · rw [if_pos hq]
        by_cases hek : e.1 = k
        · subst hek
          simp [fget, ih, hq]
        · simp [fget, ih, hek, Option.or_none]
      · have hq' : q e.1 = false := by simpa using hq
        rw [if_neg hq]
        by_cases hek : e.1 = k
        · subst hek
          simp [fget, ih, hq']
        · simp [fget, ih, hek, Option.or_none]

theorem append_cons_eq (p r : Str) : p ++ '.' :: r = (p ++ ['.']) ++ r := by
  simp

/-- Under a prefixed filter, the element's stripped key equals `r` exactly
when its original key is the prefix, a dot, then `r`. -/
theorem strip_eq_iff {p key r : Str} (h : (p ++ ['.']) <+: key) :
    key.drop (p.length + 1) = r ↔ key = p ++ '.' :: r := by
  obtain ⟨t, rfl⟩ := h
  have hdrop : ((p ++ ['.']) ++ t).drop (p.length + 1) = t :=
    List.drop_left' (by simp)
  rw [hdrop]
  constructor
  · rintro rfl
    simp
  · intro hk
    have h2 := congrArg (List.drop (p.length + 1)) hk
    rw [hdrop, append_cons_eq] at h2
    rw [h2]
    exact List.drop_left' (by simp)

theorem filterDict_cons (lc : Bool) (e : Str × Value) (d : FDict) (p : Str) :
    filterDict lc (e :: d) p =
      if (p ++ ['.']).isPrefixOf e.1 then
        (maybeLower lc (e.1.drop (p.length + 1)), e.2) :: filterDict lc d p
      else filterDict lc d p := by
  by_cases h : (p ++ ['.']) <+: e.1 <;>
    simp [filterDict, List.filterMap_cons, h]

theorem fget_filterDict (d : FDict) (p r : Str) :
    fget (filterDict false d p) r = fget d (p ++ '.' :: r) := by
  induction d with
  | nil => rfl
  | cons e d ih =>
      rw [filterDict_cons]
      by_cases h : (p ++ ['.']).isPrefixOf e.1
      · have hpre : (p ++ ['.']) <+: e.1 := by simpa using h
        rw [if_pos h, maybeLower_false]
        show (fget (filterDict false d p) r).or
            (if e.1.drop (p.length + 1) = r then some e.2 else none) =
          (fget d (p ++ '.' :: r)).or
            (if e.1 = p ++ '.' :: r then some e.2 else none)
        rw [ih, if_congr (strip_eq_iff hpre) rfl rfl]
      · rw [if_neg h]
        have hne : e.1 ≠ p ++ '.' :: r := by
          intro hc
          apply h
          rw [hc]
          simp only [List.isPrefixOf_iff_prefix]
          exact ⟨r, (append_cons_eq p r).symm⟩
        show fget (filterDict false d p) r =
          (fget d (p ++ '.' :: r)).or
            (if e.1 = p ++ '.' :: r then some e.2 else none)
        rw [ih, if_neg hne, Option.or_none]

/-- Matching the two-segment filter chain is matching the dot-joined filter. -/
theorem dotted_pre_iff {a b key : Str} :
    ((a ++ '.' :: b) ++ ['.']) <+: key ↔
      (a ++ ['.']) <+: key ∧ (b ++ ['.']) <+: key.drop (a.length + 1) := by
  constructor
  · rintro ⟨u, rfl⟩
    have hsplit : ((a ++ '.' :: b) ++ ['.']) ++ u =
        (a ++ ['.']) ++ ((b ++ ['.']) ++ u) := by simp
    constructor
    · exact ⟨(b ++ ['.']) ++ u, hsplit.symm⟩
    · rw [hsplit, List.drop_left' (by simp)]
      exact ⟨u, rfl⟩
  · rintro ⟨⟨t, rfl⟩, h2⟩
    rw [List.drop_left' (by simp)] at h2
    obtain ⟨u, rfl⟩ := h2
    refine ⟨u, ?_⟩
    simp

/-- Stripping two segments in turn strips the dot-joined run. -/
theorem drop_dotted (a b key : Str) :
    (key.drop (a.length + 1)).drop (b.length + 1) =
      key.drop ((a ++ '.' :: b).length + 1) := by
  rw [List.drop_drop]
  congr 1
  simp
  omega

theorem filterDict_compose (d : FDict) (a b : Str) :
    filterDict false (filterDict false d a) b =
      filterDict false d (a ++ '.' :: b) := by
  induction d with
  | nil => rfl
  | cons e d ih =>
      rw [filterDict_cons]
      by_cases h1 : (a ++ ['.']) <+: e.1
      · rw [if_pos (by simpa using h1), maybeLower_false, filterDict_cons,
          filterDict_cons]
        by_cases h2 : (b ++ ['.']) <+: e.1.drop (a.length + 1)
        · rw [if_pos (by simpa using h2),
            if_pos (by simpa using dotted_pre_iff.mpr ⟨h1, h2⟩), ih,
            maybeLower_false, maybeLower_false, drop_dotted]
        · rw [if_neg (by simpa using h2), ih,
            if_neg (by
              simp only [List.isPrefixOf_iff_prefix]
              exact fun hc => h2 (dotted_pre_iff.mp hc).2)]
      · rw [if_neg (by simpa using h1), ih, filterDict_cons,
          if_neg (by
            simp only [List.isPrefixOf_iff_prefix]
            exact fun hc => h1 (dotted_pre_iff.mp hc).1)]

/-- The prefixed filter is empty exactly when no stored key extends the
path by a dot (independently of the case policy). -/
theorem filterDict_eq_nil_iff (lc : Bool) (d : FDict) (p : Str) :
    filterDict lc d p = [] ↔ ∀ e ∈ d, ¬ (p ++ ['.']) <+: e.1 := by
  unfold filterDict
  rw [List.filterMap_eq_nil_iff]
  constructor
  · intro h e he hc
    have h0 := h e he
    rw [if_pos (by simpa using hc)] at h0
    exact Option.noConfusion h0
  · intro h e he
    rw [if_neg (by simpa using h e he)]

theorem splitDot_ne_nil (s : Str) : splitDot s ≠ [] := by
  induction s with
  | nil => simp [splitDot]
  | cons c cs ih =>
      by_cases h : c = '.'
      · simp [splitDot, h]
      · rcases hs : splitDot cs with _ | ⟨s1, ss⟩
        · exact absurd hs ih
        · simp [splitDot, h, hs]

theorem joinDot_cons (s : Str) (ss : List Str) (h : ss ≠ []) :
    joinDot (s :: ss) = s ++ '.' :: joinDot ss := by
  cases ss with
  | nil => exact absurd rfl h
  | cons t ts => rfl

theorem joinDot_splitDot (s : Str) : joinDot (splitDot s) = s := by
  induction s with
  | nil => rfl
  | cons c cs ih =>
      by_cases h : c = '.'
      · subst h
        rw [show splitDot ('.' :: cs) = [] :: splitDot cs from by
          simp [splitDot]]
        rw [joinDot_cons _ _ (splitDot_ne_nil cs), ih]
        rfl
      · rcases hs : splitDot cs with _ | ⟨s1, ss⟩
        · exact absurd hs (splitDot_ne_nil cs)
        · rw [show splitDot (c :: cs) = (c :: s1) :: ss from by
            simp [splitDot, h, hs]]
          rw [hs] at ih
          cases ss with
          | nil =>
              show c :: s1 = c :: cs
              rw [show joinDot [s1] = s1 from rfl] at ih
              rw [ih]
          | cons s2 ss2 =>
              rw [joinDot_cons _ _ (by simp)]
              rw [joinDot_cons _ _ (by simp)] at ih
              show c :: (s1 ++ '.' :: joinDot (s2 :: ss2)) = c :: cs
              rw [ih]

/-- The segment walk finds an exact key once the direct prefixed filter
has come up empty. -/
theorem walk_exact (v : Value) :
    ∀ (ps : List Str) (d : FDict), ps ≠ [] →
      filterDict false d (joinDot ps) = [] →
      fget d (joinDot ps) = some v →
      walk false d ps = .val v := by
  intro ps
  induction ps with
  | nil => intro d h; exact absurd rfl h
  | cons p rest ih =>
      intro d _ hfilter hget
      cases rest with
      | nil =>
          rw [show joinDot [p] = p from rfl] at hfilter hget
          simp [walk, hfilter, hget]
      | cons q qs =>
          rw [joinDot_cons _ _ (by simp)] at hfilter hget
          have hmem : filterDict false d p ≠ [] := by
            intro hnil
            have h0 : fget (filterDict false d p) (joinDot (q :: qs)) = some v := by
              rw [fget_filterDict]
              exact hget
            rw [hnil] at h0
            exact Option.noConfusion h0
          simp only [walk, hmem, ite_false, if_neg hmem]
          apply ih _ (by simp)
          · rw [filterDict_compose]
            exact hfilter
          · rw [fget_filterDict]
            exact hget

/-- The segment walk ends at the empty dict when neither the exact key
nor any dotted extension of the path is stored. -/
theorem walk_miss :
    ∀ (ps : List Str) (d : FDict), ps ≠ [] →
      filterDict false d (joinDot ps) = [] →
      fget d (joinDot ps) = none →
      walk false d ps = .dict [] := by
  intro ps
  induction ps with
  | nil => intro d h; exact absurd rfl h
  | cons p rest ih =>
      intro d _ hfilter hget
      cases rest with
      | nil =>
          rw [show joinDot [p] = p from rfl] at hfilter hget
          simp [walk, hfilter, hget]
      | cons q qs =>
          rw [joinDot_cons _ _ (by simp)] at hfilter hget
          by_cases hnd : filterDict false d p = []
          · simp [walk, hnd]
          · simp only [walk, hnd, ite_false, if_neg hnd]
            apply ih _ (by simp)
            · rw [filterDict_compose]
              exact hfilter
            · rw [fget_filterDict]
              exact hget

theorem getSubset_strip_ne (c : Config) (k : Str)
    (h : filterDict false c.dat k ≠ []) :
    getSubset c k = .dict (filterDict false c.dat k) := by
  simp only [getSubset]
  rw [if_neg h]

/-- `__getitem__` when some stored key strictly extends the path by a dot:
the sub-configuration over the stripped keys is returned (whatever the
store's case policy, and whether or not the exact key is also stored). -/
theorem getItem_strip_ne (c : Config) (k : Str)
    (h : filterDict false c.dat k ≠ []) :
    getItem c k = .ok (.sub (filterDict false c.dat k)) := by
  unfold getItem
  rw [getSubset_strip_ne c k h]
  show (if filterDict false c.dat k = [] then (Except.error PyErr.keyError)
      else Except.ok (ItemResult.sub
        (flattenDict false (ofFlat (filterDict false c.dat k))))) = _
  rw [if_neg h, flattenDict_ofFlat]

/-- `__getitem__` on a case-preserving store when no stored key extends
the path by a dot: an exact stored key is found (through the direct
lookup for one-segment paths, through the segment walk otherwise). -/
theorem getItem_exact (c : Config) (k : Str) (v : Value) (hlc : c.lc = false)
    (hfilter : filterDict false c.dat k = []) (hget : fget c.dat k = some v) :
    getItem c k = .ok (.scalar v) := by
  have h1 : getSubset c k = .val v := by
    simp only [getSubset]
    rw [if_pos hfilter]
    by_cases hlen : (splitDot k).length = 1
    · rw [if_pos hlen, hget]
    · rw [if_neg hlen, hlc]
      apply walk_exact v (splitDot k) c.dat (splitDot_ne_nil k) <;>
        rw [joinDot_splitDot] <;> assumption
  unfold getItem
  rw [h1]

/-- `__getitem__` on a case-preserving store when the path is neither a
stored key nor a strict dotted run of one: `KeyError`. -/
theorem getItem_miss (c : Config) (k : Str) (hlc : c.lc = false)
    (hfilter : filterDict false c.dat k = []) (hget : fget c.dat k = none) :
    getItem c k = .error .keyError := by
  have h1 : getSubset c k = .dict [] := by
    simp only [getSubset]
    rw [if_pos hfilter]
    by_cases hlen : (splitDot k).length = 1
    · rw [if_pos hlen, hget]
    · rw [if_neg hlen, hlc]
      apply walk_miss (splitDot k) c.dat (splitDot_ne_nil k) <;>
        rw [joinDot_splitDot] <;> assumption
  unfold getItem
  rw [h1]
  rfl

theorem fget_some_mem {d : FDict} {k : Str} {v : Value}
    (h : fget d k = some v) : (k, v) ∈ d := by
  induction d with
  | nil => exact Option.noConfusion h
  | cons e rest ih =>
      have h' : (fget rest k).or (if e.1 = k then some e.2 else none)
          = some v := h
      cases hr : fget rest k with
      | some w =>
          rw [hr, Option.or_some] at h'
          exact List.mem_cons_of_mem e (ih (hr.trans h'))
      | none =>
          rw [hr, Option.none_or] at h'
          by_cases hek : e.1 = k
          · rw [if_pos hek] at h'
            have h2 := Option.some.inj h'
            have he : e = (k, v) := Prod.ext hek h2
            rw [he]
            exact List.mem_cons_self _ _
          · rw [if_neg hek] at h'
            exact Option.noConfusion h'

theorem mget_append (a b : MDict) (k : Str) :
    mget (a ++ b) k = (mget b k).or (mget a k) := by
  induction a with
  | nil => simp [mget, Option.or_none]
  | cons e a ih =>
      show (mget (a ++ b) k).or (if e.1 = k then some e.2 else none) =
        (mget b k).or ((mget a k).or (if e.1 = k then some e.2 else none))
      rw [ih, Option.or_assoc]

theorem dedupKeys_mem (d : FDict) (k : Str) :
    k ∈ dedupKeys d ↔ ∃ e ∈ d, e.1 = k := by
  induction d with
  | nil =>
      constructor
      · intro h
        exact absurd h (List.not_mem_nil k)
      · rintro ⟨e, he, _⟩
        exact absurd he (List.not_mem_nil e)
  | cons e rest ih =>
      simp only [dedupKeys, List.mem_cons, List.mem_filter,
        decide_eq_true_eq]
      constructor
      · rintro (rfl | ⟨hk, _⟩)
        · exact ⟨e, Or.inl rfl, rfl⟩
        · obtain ⟨e', he', rfl⟩ := ih.mp hk
          exact ⟨e', Or.inr he', rfl⟩
      · rintro ⟨e', he', rfl⟩
        rcases he' with rfl | he'
        · exact Or.inl rfl
        · by_cases hek : e'.1 = e.1
          · exact Or.inl hek
          · exact Or.inr ⟨ih.mpr ⟨e', he', rfl⟩, hek⟩

/-- For a stored key, `__getitem__` never raises: either the prefixed
filter is non-empty (a sub-view) or the exact lookup hits (a scalar). -/
theorem getItem_stored {d : FDict} {k : Str} {v : Value}
    (h : fget d k = some v) : ∃ r, getItem ⟨false, d⟩ k = .ok r := by
  by_cases hf : filterDict false d k = []
  · exact ⟨.scalar v, getItem_exact _ _ v rfl hf h⟩
  · exact ⟨.sub _, getItem_strip_ne _ _ hf⟩

/-- In a prefix-free dict (no stored key extends another stored key by a
dot), the prefixed filter at any stored key is empty. -/
theorem filter_empty_of_prefixFree {d : FDict}
    (hpf : ∀ e ∈ d, ∀ e' ∈ d, ¬ (e.1 ++ ['.']) <+: e'.1)
    {k : Str} {v : Value} (hk : fget d k = some v) :
    filterDict false d k = [] :=
  (filterDict_eq_nil_iff false d k).mpr fun e' he' =>
    hpf (k, v) (fget_some_mem hk) e' he'

/-- Looking up a key in the per-key assignment block that one
`result.update(v)` step appends, for a prefix-free layer dict: each
stored key reads back as its scalar. -/
theorem mget_keyblock (d : FDict)
    (hpf : ∀ e ∈ d, ∀ e' ∈ d, ¬ (e.1 ++ ['.']) <+: e'.1) :
    ∀ (ks : List Str), (∀ k ∈ ks, fget d k ≠ none) → ∀ key,
      mget (ks.filterMap fun k =>
          (getItem ⟨false, d⟩ k).toOption.map fun r => (k, itemToM r)) key
        = if key ∈ ks then (fget d key).map MVal.scalar else none := by
  intro ks
  induction ks with
  | nil =>
      intro _ key
      simp [mget]
  | cons k ks ih =>
      intro hks key
      have hv : ∃ v, fget d k = some v := by
        cases hfk : fget d k with
        | none => exact absurd hfk (hks k (List.mem_cons_self _ _))
        | some v => exact ⟨v, rfl⟩
      obtain ⟨v, hv⟩ := hv
      have hgi : getItem ⟨false, d⟩ k = .ok (.scalar v) :=
        getItem_exact _ _ v rfl (filter_empty_of_prefixFree hpf hv) hv
      have hrec := ih (fun k' hk' => hks k' (List.mem_cons_of_mem _ hk')) key
      rw [List.filterMap_cons, hgi]
      show (mget (ks.filterMap fun k =>
          (getItem ⟨false, d⟩ k).toOption.map fun r => (k, itemToM r)) key).or
            (if k = key then some (MVal.scalar v) else none)
        = if key ∈ k :: ks then (fget d key).map MVal.scalar else none
      rw [hrec]
      by_cases hmem : key ∈ ks
      · rw [if_pos hmem]
        have hw : ∃ w, fget d key = some w := by
          cases hfk : fget d key with
          | none => exact absurd hfk (hks key (List.mem_cons_of_mem _ hmem))
          | some w => exact ⟨w, rfl⟩
        obtain ⟨w, hw⟩ := hw
        rw [hw, if_pos (List.mem_cons_of_mem _ hmem)]
        rfl
      · rw [if_neg hmem, Option.none_or]
        by_cases hkk : k = key
        · subst hkk
          rw [if_pos rfl, if_pos (List.mem_cons_self _ _), hv]
          rfl
        · rw [if_neg hkk, if_neg (by
            intro hc
            rcases List.mem_cons.mp hc with rfl | hc
            · exact hkk rfl
            · exact hmem hc)]

/-- One `result.update(v)` step over a prefix-free layer dict behaves as
the per-key scalar overwrite. -/
theorem updateByConfig_clean (acc : MDict) (d : FDict)
    (hpf : ∀ e ∈ d, ∀ e' ∈ d, ¬ (e.1 ++ ['.']) <+: e'.1) (key : Str) :
    mget (updateByConfig acc d) key =
      ((fget d key).map MVal.scalar).or (mget acc key) := by
  unfold updateByConfig pyKeys
  rw [mget_append,
    mget_keyblock d hpf (dedupKeys d)
      (fun k hk => by
        obtain ⟨e, he, rfl⟩ := (dedupKeys_mem d k).mp hk
        exact fget_ne_none_of_mem he) key]
  by_cases hmem : key ∈ dedupKeys d
  · rw [if_pos hmem]
  · rw [if_neg hmem]
    have hnone : fget d key = none :=
      (fget_eq_none_iff d key).mpr fun e he hek =>
        hmem ((dedupKeys_mem d key).mpr ⟨e, he, hek⟩)
    rw [hnone]
    rfl

/-- The `_from_configs` merge over prefix-free layer dicts resolves every
key to the first (highest-priority) layer's scalar for it. -/
theorem mget_mergeSubs (ds : List FDict)
    (hpf : ∀ d ∈ ds, ∀ e ∈ d, ∀ e' ∈ d, ¬ (e.1 ++ ['.']) <+: e'.1)
    (key : Str) :
    mget (mergeSubs (ds.map .sub)) key =
      (firstSome (ds.map fun d => fget d key)).map MVal.scalar := by
  induction ds with
  | nil => rfl
  | cons d rest ih =>
      have hstep : mergeSubs ((d :: rest).map .sub) =
          updateByConfig (mergeSubs (rest.map .sub)) d := by
        unfold mergeSubs
        rw [show ((d :: rest).map ItemResult.sub).reverse =
            (rest.map ItemResult.sub).reverse ++ [ItemResult.sub d] from by
          simp, List.foldl_append]
        rfl
      rw [hstep,
        updateByConfig_clean _ _ (hpf d (List.mem_cons_self _ _)) key,
        ih (fun d' hd' => hpf d' (List.mem_cons_of_mem _ hd'))]
      simp only [List.map_cons]
      cases hfd : fget d key <;> rfl

theorem collectItems_forall2 {cs : List Config} {ds : List FDict} {k : Str}
    (h : List.Forall₂ (fun c d => getItem c k = .ok (.sub d)) cs ds) :
    collectItems cs k = ds.map .sub := by
  induction h with
  | nil => rfl
  | cons hcd _ ih =>
      simp [collectItems, List.filterMap_cons, hcd, Except.toOption] at ih ⊢
      exact ih

/-- `_from_configs` when every layer resolves the path to a
sub-configuration: the reversed-order merge of all the layer dicts. -/
theorem fromConfigs_all_sub {cs : List Config} {ds : List FDict} {k : Str}
    (hne : cs ≠ [])
    (h : List.Forall₂ (fun c d => getItem c k = .ok (.sub d)) cs ds) :
    fromConfigs cs k = .ok (.sub (mergeSubs (ds.map .sub))) := by
  cases ds with
  | nil =>
      cases h
      exact absurd rfl hne
  | cons d rest =>
      have hcol := collectItems_forall2 h
      unfold fromConfigs
      rw [hcol]
      have hall : ((ItemResult.sub d :: rest.map ItemResult.sub).all
          ItemResult.isSub) = true := by
        simp only [List.all_eq_true, List.mem_cons, List.mem_map]
        rintro x (rfl | ⟨y, _, rfl⟩) <;> rfl
      show (if (ItemResult.sub d :: rest.map ItemResult.sub).all
            ItemResult.isSub = true then
          Except.ok (SetItemResult.sub
            (mergeSubs (ItemResult.sub d :: rest.map ItemResult.sub)))
        else _) = _
      rw [if_pos hall]
      rfl

/-- `_from_configs` when every layer raises: the failure propagates. -/
theorem fromConfigs_all_fail {cs : List Config} {k : Str}
    (h : ∀ c ∈ cs, ∃ e, getItem c k = .error e) :
    fromConfigs cs k = .error .keyError := by
  have h0 : collectItems cs k = [] := by
    unfold collectItems
    rw [List.filterMap_eq_nil_iff]
    intro c hc
    obtain ⟨e, he⟩ := h c hc
    rw [he]
    rfl
  unfold fromConfigs
  rw [h0]

/-- `_from_configs` when the first non-raising layer yields a scalar:
that scalar is returned. -/
theorem fromConfigs_first_scalar {cs₁ cs₂ : List Config} {c : Config}
    {k : Str} {v : Value}
    (h1 : ∀ c' ∈ cs₁, ∃ e, getItem c' k = .error e)
    (h2 : getItem c k = .ok (.scalar v)) :
    fromConfigs (cs₁ ++ c :: cs₂) k = .ok (.scalar v) := by
  have hnil : collectItems cs₁ k = [] := by
    unfold collectItems
    rw [List.filterMap_eq_nil_iff]
    intro c' hc
    obtain ⟨e, he⟩ := h1 c' hc
    rw [he]
    rfl
  have h0 : collectItems (cs₁ ++ c :: cs₂) k =
      .scalar v :: collectItems cs₂ k := by
    unfold collectItems
    rw [List.filterMap_append]
    rw [show List.filterMap (fun c => (getItem c k).toOption) cs₁ = []
      from hnil]
    rw [List.filterMap_cons, h2]
    rfl
  unfold fromConfigs
  rw [h0]
  have hall : ((ItemResult.scalar v :: collectItems cs₂ k).all
      ItemResult.isSub) = false := by
    simp [ItemResult.isSub]
  show (if (ItemResult.scalar v :: collectItems cs₂ k).all
        ItemResult.isSub = true then
      Except.ok (SetItemResult.sub
        (mergeSubs (ItemResult.scalar v :: collectItems cs₂ k)))
    else Except.ok (SetItemResult.scalar v)) = Except.ok (SetItemResult.scalar v)
  rw [hall]
  rfl

theorem delMatches_false_iff (pre k : Str) :
    delMatches false pre k = true ↔ (k = pre ∨ (pre ++ ['.']) <+: k) := by
  simp [delMatches]

/-! ### Claim theorems -/

/-- Claim C1, corrected.  The claim says an exact flat key wins over the
prefix lookup; in `Configuration._get_subset` it is the other way around:
the keys strictly prefixed by `path + "."` are collected FIRST, and the
exact key is consulted only when that collection is empty.  Amended
statement (for a case-preserving store): (1) when some stored key is
strictly prefixed by `path + "."`, `[]` returns the sub-store over the
stripped keys — even when `path` itself is also stored; (2) when no such
key exists and `path` is stored exactly, the stored scalar is returned;
(3) when both lookups yield nothing, `KeyError` is raised. -/
theorem claim1_get_resolution (d : FDict) (k : Str) (v : Value) :
    (filterDict false d k ≠ [] →
      getItem ⟨false, d⟩ k = .ok (.sub (filterDict false d k)))
  ∧ (filterDict false d k = [] → fget d k = some v →
      getItem ⟨false, d⟩ k = .ok (.scalar v))
  ∧ (filterDict false d k = [] → fget d k = none →
      getItem ⟨false, d⟩ k = .error .keyError) :=
  ⟨fun h => getItem_strip_ne ⟨false, d⟩ k h,
   fun h1 h2 => getItem_exact ⟨false, d⟩ k v rfl h1 h2,
   fun h1 h2 => getItem_miss ⟨false, d⟩ k rfl h1 h2⟩

/-- Claim C1 counterexample: with both `"a"` and `"a.b"` stored, the claim
requires `cfg["a"]` to return the stored scalar `1`; the code returns the
sub-store over `{"b": 2}` instead. -/
theorem claim1_counterexample :
    getItem ⟨false, [("a".toList, Value.vInt 1), ("a.b".toList, Value.vInt 2)]⟩
        ("a".toList) = .ok (.sub [("b".toList, Value.vInt 2)])
  ∧ getItem ⟨false, [("a".toList, Value.vInt 1), ("a.b".toList, Value.vInt 2)]⟩
        ("a".toList) ≠ .ok (.scalar (Value.vInt 1)) := by
  exact ⟨by decide, by decide⟩

theorem claim1_witness :
    getItem ⟨false, [("a".toList, Value.vInt 1), ("a.c".toList, Value.vInt 7)]⟩
        ("a".toList) = .ok (.sub [("c".toList, Value.vInt 7)])
  ∧ getItem ⟨false, [("x.y".toList, Value.vInt 3)]⟩ ("x.y".toList)
        = .ok (.scalar (Value.vInt 3))
  ∧ getItem ⟨false, [("x.y".toList, Value.vInt 3)]⟩ ("z".toList)
        = .error .keyError :=
  ⟨(claim1_get_resolution _ _ (Value.vInt 0)).1 (by decide),
   (claim1_get_resolution _ _ (Value.vInt 3)).2.1 (by decide) (by decide),
   (claim1_get_resolution _ _ (Value.vInt 0)).2.2 (by decide) (by decide)⟩

/-- Claim C3, corrected.  Part one of the claim holds: a key that is
neither stored exactly nor a strict dotted run of a stored key raises
`KeyError`.  Part two ("after `set(k, v)`, `get(k) == v`" for every key)
fails when other stored keys extend `k` by a dot, because the prefix
lookup then wins; it holds under the amended hypothesis that no stored
key is prefixed by `k + "."` (for a case-preserving store and scalar
`v`). -/
theorem claim3_set_then_get (d : FDict) (k : Str) (v : Value) :
    ((∀ e ∈ d, e.1 ≠ k ∧ ¬ (k ++ ['.']) <+: e.1) →
      getItem ⟨false, d⟩ k = .error .keyError)
  ∧ ((∀ e ∈ d, ¬ (k ++ ['.']) <+: e.1) →
      getItem (setItem ⟨false, d⟩ k v) k = .ok (.scalar v)) := by
  constructor
  · intro h
    apply getItem_miss _ _ rfl
    · exact (filterDict_eq_nil_iff false d k).mpr fun e he => (h e he).2
    · exact (fget_eq_none_iff d k).mpr fun e he => (h e he).1
  · intro h
    apply getItem_exact _ _ v rfl
    · rw [show (setItem ⟨false, d⟩ k v).dat = d ++ [(k, v)] from rfl,
        filterDict_eq_nil_iff]
      intro e he
      rcases List.mem_append.mp he with he | he
      · exact h e he
      · rcases List.mem_singleton.mp he with rfl
        intro hc
        have hlen := List.IsPrefix.length_le hc
        simp at hlen
    · rw [show (setItem ⟨false, d⟩ k v).dat = d ++ [(k, v)] from rfl,
        fget_append,
        show fget [(k, v)] k = some v from by simp [fget]]
      rfl

/-- Claim C3 counterexample: in a store holding `"a.b"`, after
`cfg["a"] = 5` the read `cfg["a"]` returns the sub-store over
`{"b": 1}`, not the scalar `5` the claim requires. -/
theorem claim3_counterexample :
    getItem (setItem ⟨false, [("a.b".toList, Value.vInt 1)]⟩ ("a".toList)
        (Value.vInt 5)) ("a".toList) = .ok (.sub [("b".toList, Value.vInt 1)])
  ∧ getItem (setItem ⟨false, [("a.b".toList, Value.vInt 1)]⟩ ("a".toList)
        (Value.vInt 5)) ("a".toList) ≠ .ok (.scalar (Value.vInt 5)) := by
  exact ⟨by decide, by decide⟩

theorem claim3_witness :
    getItem ⟨false, [("x.y".toList, Value.vInt 3)]⟩ ("q.r".toList)
        = .error .keyError
  ∧ getItem (setItem ⟨false, [("x.y".toList, Value.vInt 3)]⟩ ("k".toList)
        (Value.vInt 7)) ("k".toList) = .ok (.scalar (Value.vInt 7)) :=
  ⟨(claim3_set_then_get _ _ (Value.vInt 0)).1 (by decide),
   (claim3_set_then_get _ _ (Value.vInt 7)).2 (by decide)⟩

/-- Claim C9, confirmed.  `Configuration.get` is a plain exact-key lookup
on the flat dict with a default — a total function, so it never raises:
it returns the stored value on an exact hit and the default in every
other case, including when stored keys extend `key + "."`, where `[]`
would instead return a sub-view. -/
theorem claim9_get_default (c : Config) (k : Str) (dflt v : Value) :
    (fget c.dat k = some v → pyGet c k dflt = v)
  ∧ (fget c.dat k = none → pyGet c k dflt = dflt)
  ∧ (fget c.dat k = none → filterDict false c.dat k ≠ [] →
      pyGet c k dflt = dflt ∧ ∃ m, getItem c k = .ok (.sub m)) := by
  refine ⟨?_, ?_, ?_⟩
  · intro h
    simp [pyGet, h]
  · intro h
    simp [pyGet, h]
  · intro h hf
    exact ⟨by simp [pyGet, h],
      ⟨filterDict false c.dat k, getItem_strip_ne c k hf⟩⟩

theorem claim9_witness :
    pyGet ⟨false, [("a.b".toList, Value.vInt 1)]⟩ ("a".toList)
        (Value.vInt 9) = Value.vInt 9
  ∧ (∃ m, getItem ⟨false, [("a.b".toList, Value.vInt 1)]⟩ ("a".toList)
        = .ok (.sub m))
  ∧ pyGet ⟨false, [("a.b".toList, Value.vInt 1)]⟩ ("a.b".toList)
        (Value.vInt 9) = Value.vInt 1 :=
  ⟨((claim9_get_default _ _ (Value.vInt 9) (Value.vInt 0)).2.2
      (by decide) (by decide)).1,
   ((claim9_get_default _ _ (Value.vInt 9) (Value.vInt 0)).2.2
      (by decide) (by decide)).2,
   (claim9_get_default _ _ (Value.vInt 9) (Value.vInt 1)).1 (by decide)⟩

/-- Claim C5, confirmed.  `Configuration.__delitem__` on a
case-preserving store raises `KeyError` exactly when no stored key is the
path or a strict dotted run of it; on success every matching key reads
back as absent and every other key keeps its stored value. -/
theorem claim5_delete (d : FDict) (pre : Str) :
    (delItem ⟨false, d⟩ pre = .error .keyError ↔
      ∀ e ∈ d, e.1 ≠ pre ∧ ¬ (pre ++ ['.']) <+: e.1)
  ∧ ((∃ e ∈ d, e.1 = pre ∨ (pre ++ ['.']) <+: e.1) →
      ∃ c', delItem ⟨false, d⟩ pre = .ok c' ∧
        ∀ key, fget c'.dat key =
          if key = pre ∨ (pre ++ ['.']) <+: key then none
          else fget d key) := by
  constructor
  · constructor
    · intro h e he
      by_cases hany : (d.any fun e => delMatches false pre e.1) = true
      · rw [show delItem ⟨false, d⟩ pre =
            .ok ⟨false, d.filter fun e => !(delMatches false pre e.1)⟩ from by
          unfold delItem
          rw [if_pos hany]] at h
        exact Except.noConfusion h
      · have hno := List.any_eq_false.mp (Bool.not_eq_true _ ▸ hany)
        have := hno e he
        rw [delMatches_false_iff] at this
        push_neg at this
        exact this
    · intro h
      have hany : (d.any fun e => delMatches false pre e.1) = false := by
        rw [List.any_eq_false]
        intro e he
        rw [delMatches_false_iff]
        push_neg
        exact h e he
      unfold delItem
      rw [if_neg (by rw [hany]; exact Bool.false_ne_true)]
  · rintro ⟨e, he, hmatch⟩
    have hany : (d.any fun e => delMatches false pre e.1) = true :=
      List.any_eq_true.mpr ⟨e, he, (delMatches_false_iff pre e.1).mpr hmatch⟩
    refine ⟨⟨false, d.filter fun e => !(delMatches false pre e.1)⟩, ?_, ?_⟩
    · unfold delItem
      rw [if_pos hany]
    · intro key
      show fget (d.filter fun e => !(delMatches false pre e.1)) key = _
      rw [fget_filter (fun x => !(delMatches false pre x)) d key]
      by_cases hm : key = pre ∨ (pre ++ ['.']) <+: key
      · rw [if_pos hm,
          show delMatches false pre key = true from
            (delMatches_false_iff pre key).mpr hm]
        rfl
      · rw [if_neg hm,
          show delMatches false pre key = false from by
            rw [← Bool.not_eq_true, delMatches_false_iff]
            exact hm]
        rfl

theorem claim5_witness :
    (∃ c', delItem ⟨false, [("a.b.c".toList, Value.vInt 1),
        ("a.b.d".toList, Value.vInt 2), ("a.x".toList, Value.vInt 3)]⟩
        ("a.b".toList) = .ok c' ∧
      fget c'.dat ("a.b.c".toList) = none ∧
      fget c'.dat ("a.b.d".toList) = none ∧
      fget c'.dat ("a.x".toList) = some (Value.vInt 3))
  ∧ delItem ⟨false, [("a.x".toList, Value.vInt 3)]⟩ ("a.b".toList)
      = .error .keyError := by
  constructor
  · obtain ⟨c', hok, hchar⟩ :=
      (claim5_delete [("a.b.c".toList, Value.vInt 1),
        ("a.b.d".toList, Value.vInt 2), ("a.x".toList, Value.vInt 3)]
        ("a.b".toList)).2 (by decide)
    exact ⟨c', hok, by rw [hchar]; decide, by rw [hchar]; decide,
      by rw [hchar]; decide⟩
  · exact (claim5_delete [("a.x".toList, Value.vInt 3)]
      ("a.b".toList)).1.mpr (by decide)

/-- Claim C6, confirmed.  On a stored string, `get_bool` returns `True`
when the stripped, lowercased text is one of `TRUTH_TEXT`
(`t/true/y/yes/on/1`), returns `False` when it is one of `FALSE_TEXT`
(`f/false/n/no/off/0/""`), and raises `ValueError` otherwise. -/
theorem claim6_get_bool (c : Config) (k : Str) (s : Str)
    (h : getItem c k = .ok (.scalar (.vStr s))) :
    (pyLower (pyStrip s) ∈ truthText → getBool c k = .ok true)
  ∧ (pyLower (pyStrip s) ∈ falseText → getBool c k = .ok false)
  ∧ (pyLower (pyStrip s) ∉ truthText → pyLower (pyStrip s) ∉ falseText →
      getBool c k = .error .valueError) := by
  have hg : getBool c k = asBool (.vStr s) := by
    unfold getBool
    rw [h]
  have hred : asBool (.vStr s) =
      (if pyLower (pyStrip s) ∈ truthText then Except.ok true
       else if pyLower (pyStrip s) ∈ falseText then Except.ok false
       else Except.error PyErr.valueError) := rfl
  have hdisj : ∀ t, t ∈ falseText → t ∉ truthText := by
    intro t ht
    simp only [falseText, List.mem_cons, List.not_mem_nil, or_false] at ht
    rcases ht with rfl | rfl | rfl | rfl | rfl | rfl | rfl <;> decide
  refine ⟨?_, ?_, ?_⟩
  · intro ht
    rw [hg, hred, if_pos ht]
  · intro hf
    rw [hg, hred, if_neg (hdisj _ hf), if_pos hf]
  · intro h1 h2
    rw [hg, hred, if_neg h1, if_neg h2]

theorem claim6_witness :
    getBool ⟨false, [("b1".toList, Value.vStr ("Yes".toList)),
      ("b2".toList, Value.vStr ("off".toList)),
      ("b3".toList, Value.vStr ("maybe".toList))]⟩ ("b1".toList) = .ok true
  ∧ getBool ⟨false, [("b1".toList, Value.vStr ("Yes".toList)),
      ("b2".toList, Value.vStr ("off".toList)),
      ("b3".toList, Value.vStr ("maybe".toList))]⟩ ("b2".toList) = .ok false
  ∧ getBool ⟨false, [("b1".toList, Value.vStr ("Yes".toList)),
      ("b2".toList, Value.vStr ("off".toList)),
      ("b3".toList, Value.vStr ("maybe".toList))]⟩ ("b3".toList)
      = .error .valueError :=
  ⟨(claim6_get_bool _ _ ("Yes".toList) (by decide)).1 (by decide),
   (claim6_get_bool _ _ ("off".toList) (by decide)).2.1 (by decide),
   (claim6_get_bool _ _ ("maybe".toList) (by decide)).2.2 (by decide)
     (by decide)⟩

/-- Claim C7, confirmed.  Flattening is idempotent: re-flattening the
flat dict produced by `_flatten_dict` (viewed as a nested mapping with no
nesting) reproduces it, and more generally applying `_flatten_dict` to
any already-flat mapping — one with no nested-mapping values — returns an
equal mapping.  (The source has no `unflatten`; this is the equivalent
reading the claim itself gives.) -/
theorem claim7_flatten_idempotent (m : NDict) (d : FDict) :
    flattenDict false (ofFlat (flattenDict false m)) = flattenDict false m
  ∧ flattenDict false (ofFlat d) = d :=
  ⟨flattenDict_ofFlat (flattenDict false m), flattenDict_ofFlat d⟩

/-- Claim C10, confirmed.  With `lowercase_keys=True`, constructing from
`{"A": {"B": 1}}` stores the single flat key `"a.b"`; afterwards `"A.B"`
and `"A"` raise `KeyError` (lookups are case-sensitive — folding applies
at storage time only) while `"a.b"` returns `1`. -/
theorem claim10_case_fold_storage_only :
    (mkConfig (.nodeE ("A".toList) (.leafE ("B".toList) (Value.vInt 1) .nil)
        .nil) true).dat = [("a.b".toList, Value.vInt 1)]
  ∧ getItem (mkConfig (.nodeE ("A".toList) (.leafE ("B".toList)
        (Value.vInt 1) .nil) .nil) true) ("A.B".toList) = .error .keyError
  ∧ getItem (mkConfig (.nodeE ("A".toList) (.leafE ("B".toList)
        (Value.vInt 1) .nil) .nil) true) ("A".toList) = .error .keyError
  ∧ getItem (mkConfig (.nodeE ("A".toList) (.leafE ("B".toList)
        (Value.vInt 1) .nil) .nil) true) ("a.b".toList)
      = .ok (.scalar (Value.vInt 1)) := by
  exact ⟨by decide, by decide, by decide, by decide⟩

/-- Claim C2, corrected.  `result.update(v)` iterates `v.keys()` and
reads each key through `v.__getitem__`; when a layer's sub-view holds
both a key and a strict dotted extension of it, that read returns a
sub-`Configuration` object, which `update` stores in place of the
layer's leaf — so the higher-priority layer's leaf value does NOT win on
such a key.  Amended statement: for layers whose sub-views are
prefix-free (no key of a layer's sub-view dottedly extends another of
its keys) and hold neither the literal key `"keys"` nor keys under
`"keys."` (Python's `keys()` escape hatch, which the model excludes),
the read merges lower-priority layers first and higher-priority layers
last, so every key resolves to the first layer in priority order that
defines it: higher-priority leaf values win on overlap and
non-overlapping keys from lower layers are preserved. -/
theorem claim2_layered_merge (cs : List Config) (ds : List FDict)
    (path : Str) (hne : cs ≠ [])
    (h : List.Forall₂ (fun c d => getItem c path = .ok (.sub d)) cs ds)
    (hpf : ∀ d ∈ ds, ∀ e ∈ d, ∀ e' ∈ d, ¬ (e.1 ++ ['.']) <+: e'.1)
    (_hnk : ∀ d ∈ ds, ∀ e ∈ d, e.1 ≠ "keys".toList ∧
        ¬ ("keys".toList ++ ['.']) <+: e.1) :
    ∃ M, fromConfigs cs path = .ok (.sub M) ∧
      ∀ key, mget M key =
        (firstSome (ds.map fun d => fget d key)).map MVal.scalar := by
  refine ⟨mergeSubs (ds.map .sub), fromConfigs_all_sub hne h, ?_⟩
  intro key
  exact mget_mergeSubs ds hpf key

/-- Claim C2 counterexample: the layer `Configuration({"a.b": 1, "a":
{"b.c": 2}})` (highest priority) flattens to `{"a.b.c": 2, "a.b": 1}`,
and its sub-view at `"a"` holds both `"b" ↦ 1` and `"b.c" ↦ 2`.  Layered
over `{"a.b": 9, "a.d": 4}` and read at `"a"`, the merge stores at `"b"`
the sub-`Configuration` `{"c": 2}` returned by `__getitem__` — not the
higher-priority layer's leaf `1` that the claim requires to win. -/
theorem claim2_counterexample :
    (mkConfig (.leafE ("a.b".toList) (Value.vInt 1)
        (.nodeE ("a".toList) (.leafE ("b.c".toList) (Value.vInt 2) .nil)
          .nil)) false).dat
      = [("a.b.c".toList, Value.vInt 2), ("a.b".toList, Value.vInt 1)]
  ∧ getItem ⟨false, [("a.b.c".toList, Value.vInt 2),
        ("a.b".toList, Value.vInt 1)]⟩ ("a".toList)
      = .ok (.sub [("b.c".toList, Value.vInt 2),
          ("b".toList, Value.vInt 1)])
  ∧ fromConfigs [⟨false, [("a.b.c".toList, Value.vInt 2),
        ("a.b".toList, Value.vInt 1)]⟩,
      ⟨false, [("a.b".toList, Value.vInt 9),
        ("a.d".toList, Value.vInt 4)]⟩] ("a".toList)
      = .ok (.sub [("b".toList, MVal.scalar (Value.vInt 9)),
          ("d".toList, MVal.scalar (Value.vInt 4)),
          ("b.c".toList, MVal.scalar (Value.vInt 2)),
          ("b".toList, MVal.subConf [("c".toList, Value.vInt 2)])])
  ∧ mget [("b".toList, MVal.scalar (Value.vInt 9)),
        ("d".toList, MVal.scalar (Value.vInt 4)),
        ("b.c".toList, MVal.scalar (Value.vInt 2)),
        ("b".toList, MVal.subConf [("c".toList, Value.vInt 2)])]
        ("b".toList)
      = some (MVal.subConf [("c".toList, Value.vInt 2)])
  ∧ mget [("b".toList, MVal.scalar (Value.vInt 9)),
        ("d".toList, MVal.scalar (Value.vInt 4)),
        ("b.c".toList, MVal.scalar (Value.vInt 2)),
        ("b".toList, MVal.subConf [("c".toList, Value.vInt 2)])]
        ("b".toList)
      ≠ some (MVal.scalar (Value.vInt 1)) := by
  exact ⟨by decide, by decide, by decide, by decide, by decide⟩

theorem claim2_witness :
    ∃ M, fromConfigs [⟨false, [("a.b".toList, Value.vInt 1),
        ("a.c".toList, Value.vInt 2)]⟩,
      ⟨false, [("a.b".toList, Value.vInt 9),
        ("a.d".toList, Value.vInt 4)]⟩] ("a".toList) = .ok (.sub M) ∧
      mget M ("b".toList) = some (MVal.scalar (Value.vInt 1)) ∧
      mget M ("c".toList) = some (MVal.scalar (Value.vInt 2)) ∧
      mget M ("d".toList) = some (MVal.scalar (Value.vInt 4)) := by
  obtain ⟨M, hM, hchar⟩ := claim2_layered_merge
    [⟨false, [("a.b".toList, Value.vInt 1), ("a.c".toList, Value.vInt 2)]⟩,
     ⟨false, [("a.b".toList, Value.vInt 9), ("a.d".toList, Value.vInt 4)]⟩]
    [[("b".toList, Value.vInt 1), ("c".toList, Value.vInt 2)],
     [("b".toList, Value.vInt 9), ("d".toList, Value.vInt 4)]]
    ("a".toList) (by simp)
    (List.Forall₂.cons (by decide)
      (List.Forall₂.cons (by decide) List.Forall₂.nil))
    (by decide) (by decide)
  exact ⟨M, hM, by rw [hchar]; decide, by rw [hchar]; decide,
    by rw [hchar]; decide⟩

/-- Claim C4, confirmed.  A `ConfigurationSet` read tries each layer in
priority order; for a scalar result the first layer that does not raise
supplies the value, and when every layer raises the read fails
(`_from_configs` re-raises the last recorded error). -/
theorem claim4_scalar_dispatch (cs cs₁ cs₂ : List Config) (c : Config)
    (k : Str) (v : Value) :
    ((∀ c' ∈ cs, ∃ e, getItem c' k = .error e) →
      fromConfigs cs k = .error .keyError)
  ∧ ((∀ c' ∈ cs₁, ∃ e, getItem c' k = .error e) →
      getItem c k = .ok (.scalar v) →
      fromConfigs (cs₁ ++ c :: cs₂) k = .ok (.scalar v)) :=
  ⟨fun h => fromConfigs_all_fail h,
   fun h1 h2 => fromConfigs_first_scalar h1 h2⟩

theorem claim4_witness :
    fromConfigs [⟨false, [("x".toList, Value.vInt 1)]⟩] ("zz".toList)
      = .error .keyError
  ∧ fromConfigs ([⟨false, [("x".toList, Value.vInt 1)]⟩] ++
      ⟨false, [("k".toList, Value.vInt 5)]⟩ ::
        [⟨false, [("k".toList, Value.vInt 6)]⟩]) ("k".toList)
      = .ok (.scalar (Value.vInt 5)) :=
  ⟨(claim4_scalar_dispatch [⟨false, [("x".toList, Value.vInt 1)]⟩] [] []
      ⟨false, []⟩ ("zz".toList) (Value.vInt 0)).1
      (by
        intro c' hc
        rw [List.mem_singleton] at hc
        subst hc
        exact ⟨.keyError, by decide⟩),
   (claim4_scalar_dispatch [] [⟨false, [("x".toList, Value.vInt 1)]⟩]
      [⟨false, [("k".toList, Value.vInt 6)]⟩]
      ⟨false, [("k".toList, Value.vInt 5)]⟩ ("k".toList) (Value.vInt 5)).2
      (by
        intro c' hc
        rw [List.mem_singleton] at hc
        subst hc
        exact ⟨.keyError, by decide⟩)
      (by decide)⟩

/-- Claim C8, confirmed.  Every external mutation goes through
`_writable_config`: the first mutation on a set with `_writable` unset
inserts exactly one new empty store (inheriting layer 0's case policy) at
the highest-priority position and sets the one-way `_writable` flag;
every mutation, first and later, writes only into layer 0, leaving all
other layers untouched and inserting nothing further. -/
theorem claim8_writable_layer (s : CSet) (other : NDict)
    (hne : s.configs ≠ []) :
    (csetUpdate s other).writable = true
  ∧ (s.writable = false →
      (csetUpdate s other).configs =
        updateConfig ⟨headLc s.configs, []⟩ other :: s.configs)
  ∧ (s.writable = true →
      ∃ c rest, s.configs = c :: rest ∧
        (csetUpdate s other).configs = updateConfig c other :: rest) := by
  obtain ⟨configs, writable⟩ := s
  cases writable
  · have hcu : csetUpdate ⟨configs, false⟩ other =
        ⟨updateConfig ⟨headLc configs, []⟩ other :: configs, true⟩ := rfl
    rw [hcu]
    exact ⟨rfl, fun _ => rfl, fun h => absurd h (by simp)⟩
  · cases configs with
    | nil => exact absurd rfl hne
    | cons c rest =>
        have hcu : csetUpdate ⟨c :: rest, true⟩ other =
            ⟨updateConfig c other :: rest, true⟩ := rfl
        rw [hcu]
        exact ⟨rfl, fun h => absurd h (by simp),
          fun _ => ⟨c, rest, rfl, rfl⟩⟩

theorem claim8_witness :
    ((csetUpdate ⟨[⟨false, [("x".toList, Value.vInt 1)]⟩], false⟩
        (.leafE ("k".toList) (Value.vInt 2) .nil)).writable = true)
  ∧ ((csetUpdate ⟨[⟨false, [("x".toList, Value.vInt 1)]⟩], false⟩
        (.leafE ("k".toList) (Value.vInt 2) .nil)).configs =
      updateConfig ⟨false, []⟩ (.leafE ("k".toList) (Value.vInt 2) .nil)
        :: [⟨false, [("x".toList, Value.vInt 1)]⟩])
  ∧ (∃ c rest,
      ([⟨false, []⟩, ⟨false, [("x".toList, Value.vInt 1)]⟩] :
          List Config) = c :: rest ∧
      (csetUpdate ⟨[⟨false, []⟩, ⟨false, [("x".toList, Value.vInt 1)]⟩],
          true⟩ (.leafE ("q".toList) (Value.vInt 3) .nil)).configs =
        updateConfig c (.leafE ("q".toList) (Value.vInt 3) .nil) :: rest) :=
  ⟨(claim8_writable_layer _ _ (by simp)).1,
   (claim8_writable_layer ⟨[⟨false, [("x".toList, Value.vInt 1)]⟩], false⟩
      (.leafE ("k".toList) (Value.vInt 2) .nil) (by simp)).2.1 rfl,
   (claim8_writable_layer
      ⟨[⟨false, []⟩, ⟨false, [("x".toList, Value.vInt 1)]⟩], true⟩
      (.leafE ("q".toList) (Value.vInt 3) .nil) (by simp)).2.2 rfl⟩

end PyConf
